import Mathlib

/-!
# Verification of the FRETBursts photon-rate estimation core

This file gives a shallow embedding of the functions in
`src/fretbursts/phtools/phrates.py` and proves the frozen claims about them.

Modelling conventions:
* a numpy timestamp array is a `List ℤ`;
* the kernel bandwidth `tau` (a Python float used only in exact comparisons
  against integer timestamp differences, and inside `exp`) is a rational `ℚ`;
* rate values (float64 sums of `exp` terms) are modelled as real numbers;
* the `np.int16` storage of the `nph` photon-count array is modelled by
  wrapping the stored integer into the interval `[-2^15, 2^15)`, which is the
  classic numpy semantics of assigning an out-of-range Python int to an
  `int16` array slot;
* a numpy `IndexError` (reading `ph[ineg]` past the end of the array) and a
  numpy broadcasting error are modelled by an `Option` result of `none`;
* Python slices `ph[m-1:]` and `ph[:ph.size-m+1]` are modelled with the exact
  Python semantics of negative bounds (`pySliceFrom` / `pySliceTo`), and the
  elementwise arithmetic on two sliced arrays goes through numpy's 1-D
  broadcasting rule (`bcast`): equal lengths zip, a length-1 operand
  stretches, anything else is an error;
* the unbounded `while` loops of `_kde_laplace_self` are written with an
  explicit structural bound (`fuel`) that is at least the number of steps the
  Python loop can take before it either terminates or raises `IndexError`, so
  the recursion is structural and the functions compute by `rfl`/`simp`.
-/

namespace FRETBursts

instance : Std.Antisymm ((· : ℤ) ≤ ·) := ⟨fun h1 h2 => le_antisymm h1 h2⟩

instance : Std.Antisymm ((· : ℚ) ≤ ·) := ⟨fun h1 h2 => le_antisymm h1 h2⟩

/-- Python slice `l[s:]` (negative `s` counts from the end, clamped). -/
def pySliceFrom (l : List ℤ) (s : ℤ) : List ℤ :=
  if 0 ≤ s then l.drop s.toNat else l.drop ((l.length : ℤ) + s).toNat

/-- Python slice `l[:e]` (negative `e` counts from the end, clamped). -/
def pySliceTo (l : List ℤ) (e : ℤ) : List ℤ :=
  if 0 ≤ e then l.take e.toNat else l.take ((l.length : ℤ) + e).toNat

/-- Numpy 1-D broadcasting of a binary elementwise operation: equal lengths
are zipped, a length-1 operand is stretched, any other shape pair raises a
broadcasting error (`none`). -/
def bcast {β : Type} (f : ℤ → ℤ → β) (a b : List ℤ) : Option (List β) :=
  if a.length = b.length then some (List.zipWith f a b)
  else if a.length = 1 then some (b.map (f (a.getD 0 0)))
  else if b.length = 1 then some (a.map (fun x => f x (b.getD 0 0)))
  else none

/-- `mtuple_delays(ph, m) = ph[m-1:] - ph[:ph.size-m+1]`
(phrates.py lines 45-47). -/
def mtuple_delays (ph : List ℤ) (m : ℕ) : Option (List ℤ) :=
  bcast (fun x y => x - y)
    (pySliceFrom ph ((m : ℤ) - 1)) (pySliceTo ph ((ph.length : ℤ) - m + 1))

/-- `mtuple_rates(ph, m) = m / (ph[m-1:] - ph[:ph.size-m+1])`
(phrates.py lines 56-58).  True division of the integer difference array;
modelled in `ℚ` (a zero delay gives `inf` in numpy, `0` under Lean's
division-by-zero convention -- both differ from any finite nonzero value). -/
def mtuple_rates (ph : List ℤ) (m : ℕ) : Option (List ℚ) :=
  (bcast (fun x y => x - y)
    (pySliceFrom ph ((m : ℤ) - 1)) (pySliceTo ph ((ph.length : ℤ) - m + 1))).map
    (List.map (fun d : ℤ => (m : ℚ) / (d : ℚ)))

/-- `mtuple_rates_t(ph, m) = 0.5 * (ph[m-1:] + ph[:ph.size-m+1])`
(phrates.py lines 60-62). -/
def mtuple_rates_t (ph : List ℤ) (m : ℕ) : Option (List ℚ) :=
  bcast (fun x y => ((x : ℚ) + (y : ℚ)) / 2)
    (pySliceFrom ph ((m : ℤ) - 1)) (pySliceTo ph ((ph.length : ℤ) - m + 1))

/-- `mtuple_delays_min` (phrates.py lines 49-54): `None` when `ph.size < m`,
else the `.min()` of the delay array. -/
def mtuple_delays_min (ph : List ℤ) (m : ℕ) : Option ℤ :=
  if ph.length < m then none else (mtuple_delays ph m).bind List.min?

/-- `mtuple_rates_max` (phrates.py lines 64-69): `None` when `ph.size < m`,
else the `.max()` of the rate array. -/
def mtuple_rates_max (ph : List ℤ) (m : ℕ) : Option ℚ :=
  if ph.length < m then none else (mtuple_rates ph m).bind List.max?

/-- The value of `mtuple_delays` in the well-shaped regime `1 ≤ m ≤ ph.size`:
both slices have length `ph.size - m + 1` and broadcasting is plain zipping. -/
def delaysL (ph : List ℤ) (m : ℕ) : List ℤ :=
  List.zipWith (fun x y => x - y) (ph.drop (m - 1)) (ph.take (ph.length - m + 1))

/-- The value of `mtuple_rates` in the well-shaped regime. -/
def ratesL (ph : List ℤ) (m : ℕ) : List ℚ :=
  (delaysL ph m).map (fun d : ℤ => (m : ℚ) / (d : ℚ))

/-- The value of `mtuple_rates_t` in the well-shaped regime. -/
def ratesTL (ph : List ℤ) (m : ℕ) : List ℚ :=
  List.zipWith (fun x y : ℤ => ((x : ℚ) + (y : ℚ)) / 2)
    (ph.drop (m - 1)) (ph.take (ph.length - m + 1))

/-!
## The self-evaluation Laplace KDE (`_kde_laplace_self`, phrates.py 147-191)

```
ipos, ineg = 0, 0
tau_lim = 5*tau
for i, t in enumerate(ph):
    while ipos < ph_size and ph[ipos] - t < tau_lim:
        ipos += 1
    while t - ph[ineg] > tau_lim:
        ineg += 1
    delta_t = np.abs(ph[ineg:ipos] - t)
    rates[i] = np.exp(-delta_t / tau).sum()
    nph[i] = ipos - ineg
```
-/

/-- The `ipos` advance loop `while ipos < ph_size and ph[ipos] - t < tau_lim`.
The loop is bounded by `ph.length`, so fuel `ph.length - s` is exact. -/
def whileIpos (ph : List ℤ) (tlim : ℚ) (t : ℤ) : ℕ → ℕ → ℕ
  | 0, s => s
  | k+1, s =>
    if s < ph.length ∧ ((ph.getD s 0 - t : ℤ) : ℚ) < tlim then
      whileIpos ph tlim t k (s+1)
    else s

/-- The `ineg` advance loop `while t - ph[ineg] > tau_lim`.  The Python loop
has no bounds check: reading `ph[ineg]` with `ineg = ph_size` raises
`IndexError`, modelled as `none`.  Fuel `ph.length + 1 - s` covers every step
up to and including that failing read. -/
def whileIneg (ph : List ℤ) (tlim : ℚ) (t : ℤ) : ℕ → ℕ → Option ℕ
  | 0, _ => none
  | k+1, s =>
    if s < ph.length then
      (if tlim < ((t - ph.getD s 0 : ℤ) : ℚ) then whileIneg ph tlim t k (s+1)
       else some s)
    else none

/-- The `for i, t in enumerate(ph)` loop of `_kde_laplace_self`, recording the
post-update pointer pair `(ineg, ipos)` of every iteration.  An `IndexError`
raised by the `ineg` loop aborts the whole call (`none`). -/
def kdeGo (ph : List ℤ) (tlim : ℚ) : ℕ → ℕ → ℕ → ℕ → Option (List (ℕ × ℕ))
  | 0, _, _, _ => some []
  | k+1, i, ipos, ineg =>
    if i < ph.length then
      (whileIneg ph tlim (ph.getD i 0) (ph.length + 1 - ineg) ineg).bind
        (fun ineg2 =>
          (kdeGo ph tlim k (i+1)
            (whileIpos ph tlim (ph.getD i 0) (ph.length - ipos) ipos)
            ineg2).map
            (fun rest =>
              (ineg2, whileIpos ph tlim (ph.getD i 0) (ph.length - ipos) ipos)
                :: rest))
    else some []

/-- All post-update window pairs `(ineg, ipos)` of `_kde_laplace_self ph tau`,
starting from `ipos, ineg = 0, 0` with `tau_lim = 5*tau`. -/
def kdeWindows (ph : List ℤ) (tau : ℚ) : Option (List (ℕ × ℕ)) :=
  kdeGo ph (5 * tau) ph.length 0 0 0

/-- Wrap an integer into `np.int16`, the classic numpy semantics of storing an
out-of-range Python int into an `int16` array slot. -/
def int16wrap (z : ℤ) : ℤ := (z + 2 ^ 15) % 2 ^ 16 - 2 ^ 15

/-- The `nph` array returned by `_kde_laplace_self`: `nph[i] = ipos - ineg`
stored into an `np.int16` array. -/
def kde_nph (ph : List ℤ) (tau : ℚ) : Option (List ℤ) :=
  (kdeWindows ph tau).map
    (List.map (fun w => int16wrap ((w.2 : ℤ) - (w.1 : ℤ))))

/-- The `rates` array returned by `_kde_laplace_self`:
`rates[i] = np.exp(-np.abs(ph[ineg:ipos] - t) / tau).sum()` with the
post-update pointers of iteration `i`. -/
noncomputable def kde_rates (ph : List ℤ) (tau : ℚ) : Option (List ℝ) :=
  (kdeWindows ph tau).map
    (fun ws => (List.range ph.length).map
      (fun i => ∑ j ∈ Finset.Ico (ws.getD i (0, 0)).1 (ws.getD i (0, 0)).2,
        Real.exp (-(((ph.getD j 0 - ph.getD i 0).natAbs : ℝ)) / (tau : ℝ))))

/-!
## Specification-side definitions

These follow the words of the spec / claims and are compared with the
loop-computed values above.
-/

/-- The least `j` with `s ≤ j < n` such that `p j`, else `n`; a direct
"smallest index such that" searcher used only to state specifications. -/
def leastFrom (p : ℕ → Bool) (n : ℕ) : ℕ → ℕ → ℕ
  | 0, _ => n
  | k+1, s => if s < n then (if p s then s else leastFrom p n k (s+1)) else n

/-- The least `j < n` with `p j`, else `n`. -/
def leastIdx (p : ℕ → Bool) (n : ℕ) : ℕ := leastFrom p n n 0

/-- Spec (§4.3): "`ineg`: the smallest index such that
`ph[i] - ph[ineg] ≤ L`". -/
def specIneg (ph : List ℤ) (tlim : ℚ) (i : ℕ) : ℕ :=
  leastIdx (fun j => decide (((ph.getD i 0 - ph.getD j 0 : ℤ) : ℚ) ≤ tlim))
    ph.length

/-- Spec (§4.3): "`ipos`: the smallest index such that
`ph[ipos] - ph[i] ≥ L`" (or `ph.length` when no such index exists). -/
def specIpos (ph : List ℤ) (tlim : ℚ) (i : ℕ) : ℕ :=
  leastIdx (fun j => decide (tlim ≤ ((ph.getD j 0 - ph.getD i 0 : ℤ) : ℚ)))
    ph.length

/-- The exact number of indices `j` with `-5*tau ≤ ph[j] - ph[i] < 5*tau`
(left edge of the window included, right edge excluded). -/
def windowCount (ph : List ℤ) (tau : ℚ) (i : ℕ) : ℕ :=
  ((Finset.range ph.length).filter
    (fun j : ℕ => -(5 * tau) ≤ ((ph.getD j 0 - ph.getD i 0 : ℤ) : ℚ) ∧
      ((ph.getD j 0 - ph.getD i 0 : ℤ) : ℚ) < 5 * tau)).card

/-- The count claimed by C1: the number of indices `j` with
`|ph[j] - ph[i]| ≤ 5*tau` (both edges included). -/
def claimNphCount (ph : List ℤ) (tau : ℚ) (i : ℕ) : ℕ :=
  ((Finset.range ph.length).filter
    (fun j : ℕ => |((ph.getD j 0 - ph.getD i 0 : ℤ) : ℚ)| ≤ 5 * tau)).card

/-!
## Basic lemmas about the index searchers
-/

theorem leastFrom_spec (p : ℕ → Bool) (n : ℕ) :
    ∀ k s, n - s ≤ k → s ≤ n →
      (s ≤ leastFrom p n k s ∧ leastFrom p n k s ≤ n) ∧
      (∀ j, s ≤ j → j < leastFrom p n k s → p j = false) ∧
      (leastFrom p n k s < n → p (leastFrom p n k s) = true) := by
  intro k
  induction k with
  | zero =>
    intro s hf hs
    have hsn : s = n := by omega
    subst hsn
    refine ⟨⟨le_refl _, le_refl _⟩, ?_, ?_⟩
    · intro j h1 h2
      rw [leastFrom] at h2
      omega
    · intro h
      rw [leastFrom] at h
      omega
  | succ k ih =>
    intro s hf hs
    by_cases hlt : s < n
    · by_cases hp : p s
      · rw [leastFrom, if_pos hlt, if_pos hp]
        exact ⟨⟨le_refl _, le_of_lt hlt⟩, fun j h1 h2 => by omega, fun _ => hp⟩
      · rw [leastFrom, if_pos hlt, if_neg hp]
        obtain ⟨⟨ih1, ih2⟩, ih3, ih4⟩ := ih (s+1) (by omega) (by omega)
        refine ⟨⟨by omega, ih2⟩, ?_, ih4⟩
        intro j h1 h2
        rcases Nat.eq_or_lt_of_le h1 with rfl | h1'
        · exact Bool.eq_false_iff.mpr hp
        · exact ih3 j (by omega) h2
    · rw [leastFrom, if_neg hlt]
      exact ⟨⟨by omega, le_refl _⟩, fun j h1 h2 => by omega, fun h => by omega⟩

theorem leastIdx_le (p : ℕ → Bool) (n : ℕ) : leastIdx p n ≤ n :=
  ((leastFrom_spec p n n 0 (by omega) (by omega)).1).2

theorem leastIdx_false (p : ℕ → Bool) (n : ℕ) :
    ∀ j, j < leastIdx p n → p j = false :=
  fun j hj => (leastFrom_spec p n n 0 (by omega) (by omega)).2.1 j (by omega) hj

theorem leastIdx_true (p : ℕ → Bool) (n : ℕ) (h : leastIdx p n < n) :
    p (leastIdx p n) = true :=
  (leastFrom_spec p n n 0 (by omega) (by omega)).2.2 h

theorem leastIdx_eq_of (p : ℕ → Bool) (n r : ℕ) (hrn : r ≤ n)
    (hall : ∀ j, j < r → p j = false) (hstop : r < n → p r = true) :
    leastIdx p n = r := by
  rcases lt_trichotomy (leastIdx p n) r with h | h | h
  · have h1 := hall _ h
    have h2 := leastIdx_true p n (by omega)
    rw [h1] at h2
    exact absurd h2 (by simp)
  · exact h
  · have h1 := leastIdx_false p n r h
    have h2 := hstop (by have := leastIdx_le p n; omega)
    rw [h1] at h2
    exact absurd h2 (by simp)

theorem leastIdx_le_of_true (p : ℕ → Bool) (n i : ℕ) (_hi : i < n)
    (hp : p i = true) : leastIdx p n ≤ i := by
  by_contra h
  have := leastIdx_false p n i (by omega)
  rw [hp] at this
  exact absurd this (by simp)

theorem leastIdx_mono_pred (p q : ℕ → Bool) (n : ℕ)
    (h : ∀ j, j < n → q j = true → p j = true) :
    leastIdx p n ≤ leastIdx q n := by
  rcases Nat.lt_or_ge (leastIdx q n) n with hlt | hge
  · exact leastIdx_le_of_true p n _ hlt (h _ hlt (leastIdx_true q n hlt))
  · have := leastIdx_le p n
    omega

theorem whileIpos_spec (ph : List ℤ) (tlim : ℚ) (t : ℤ) :
    ∀ k s, ph.length - s ≤ k → s ≤ ph.length →
      (s ≤ whileIpos ph tlim t k s ∧ whileIpos ph tlim t k s ≤ ph.length) ∧
      (∀ j, s ≤ j → j < whileIpos ph tlim t k s →
        ((ph.getD j 0 - t : ℤ) : ℚ) < tlim) ∧
      (whileIpos ph tlim t k s < ph.length →
        ¬ ((ph.getD (whileIpos ph tlim t k s) 0 - t : ℤ) : ℚ) < tlim) := by
  intro k
  induction k with
  | zero =>
    intro s hf hs
    have hsn : s = ph.length := by omega
    rw [whileIpos]
    exact ⟨⟨le_refl _, hs⟩, fun j h1 h2 => by omega, fun h => by omega⟩
  | succ k ih =>
    intro s hf hs
    by_cases hc : s < ph.length ∧ ((ph.getD s 0 - t : ℤ) : ℚ) < tlim
    · rw [whileIpos, if_pos hc]
      obtain ⟨⟨ih1, ih2⟩, ih3, ih4⟩ := ih (s+1) (by omega) (by omega)
      refine ⟨⟨by omega, ih2⟩, ?_, ih4⟩
      intro j h1 h2
      rcases Nat.eq_or_lt_of_le h1 with rfl | h1'
      · exact hc.2
      · exact ih3 j (by omega) h2
    · rw [whileIpos, if_neg hc]
      refine ⟨⟨le_refl _, hs⟩, fun j h1 h2 => by omega, ?_⟩
      intro hlt hguard
      exact hc ⟨hlt, hguard⟩

theorem whileIneg_spec (ph : List ℤ) (tlim : ℚ) (t : ℤ) :
    ∀ k s i, i + 1 - s ≤ k → s ≤ i → i < ph.length →
      ¬ tlim < ((t - ph.getD i 0 : ℤ) : ℚ) →
      ∃ r, whileIneg ph tlim t k s = some r ∧ s ≤ r ∧ r ≤ i ∧
        (∀ j, s ≤ j → j < r → tlim < ((t - ph.getD j 0 : ℤ) : ℚ)) ∧
        ¬ tlim < ((t - ph.getD r 0 : ℤ) : ℚ) := by
  intro k
  induction k with
  | zero =>
    intro s i hf hs _ _
    omega
  | succ k ih =>
    intro s i hf hs hi hstop
    have hsn : s < ph.length := by omega
    by_cases hg : tlim < ((t - ph.getD s 0 : ℤ) : ℚ)
    · have hsi : s < i := by
        rcases Nat.eq_or_lt_of_le hs with rfl | h
        · exact absurd hg hstop
        · exact h
      obtain ⟨r, hr, hr1, hr2, hr3, hr4⟩ := ih (s+1) i (by omega) (by omega) hi hstop
      refine ⟨r, ?_, by omega, hr2, ?_, hr4⟩
      · rw [whileIneg, if_pos hsn, if_pos hg]
        exact hr
      · intro j h1 h2
        rcases Nat.eq_or_lt_of_le h1 with rfl | h1'
        · exact hg
        · exact hr3 j (by omega) h2
    · refine ⟨s, ?_, le_refl _, hs, fun j h1 h2 => by omega, hg⟩
      rw [whileIneg, if_pos hsn, if_neg hg]

/-!
## Sorted-array access lemmas
-/

theorem getD_mono_of_pairwise (ph : List ℤ) (hs : List.Pairwise (· ≤ ·) ph)
    {i j : ℕ} (hij : i ≤ j) (hj : j < ph.length) :
    ph.getD i 0 ≤ ph.getD j 0 := by
  rcases Nat.eq_or_lt_of_le hij with rfl | hlt
  · exact le_refl _
  · rw [List.getD_eq_getElem _ _ (by omega), List.getD_eq_getElem _ _ hj]
    exact List.pairwise_iff_getElem.mp hs i j (by omega) hj hlt

theorem getD_strict_mono_of_pairwise (ph : List ℤ)
    (hs : List.Pairwise (· < ·) ph) {i j : ℕ} (hij : i < j)
    (hj : j < ph.length) : ph.getD i 0 < ph.getD j 0 := by
  rw [List.getD_eq_getElem _ _ (by omega), List.getD_eq_getElem _ _ hj]
  exact List.pairwise_iff_getElem.mp hs i j (by omega) hj hij

/-!
## Characterization of the `_kde_laplace_self` loop

For a sorted array and `tau_lim ≥ 0` the two-pointer loop is total (no
`IndexError`) and at every iteration `i` the post-update pointers are exactly
the spec's "smallest index such that" values.
-/

theorem kdeGo_spec (ph : List ℤ) (tlim : ℚ)
    (hs : List.Pairwise (· ≤ ·) ph) (h0 : 0 ≤ tlim) :
    ∀ k i ipos ineg, ph.length - i ≤ k → i ≤ ph.length → ipos ≤ ph.length →
      (i < ph.length → ineg ≤ i) →
      (i < ph.length → ∀ j, j < ipos →
        ((ph.getD j 0 - ph.getD i 0 : ℤ) : ℚ) < tlim) →
      (i < ph.length → ∀ j, j < ineg →
        tlim < ((ph.getD i 0 - ph.getD j 0 : ℤ) : ℚ)) →
      kdeGo ph tlim k i ipos ineg =
        some ((List.range' i (ph.length - i)).map
          (fun x => (specIneg ph tlim x, specIpos ph tlim x))) := by
  intro k
  induction k with
  | zero =>
    intro i ipos ineg hf hi _ _ _ _
    have : ph.length - i = 0 := by omega
    rw [kdeGo, this]
    rfl
  | succ k ih =>
    intro i ipos ineg hf hi hip hin hIpre hNpre
    by_cases h : i < ph.length
    · -- the ineg loop halts at or before i, giving exactly specIneg i
      have hstop : ¬ tlim < ((ph.getD i 0 - ph.getD i 0 : ℤ) : ℚ) := by
        simp only [sub_self, Int.cast_zero, not_lt]
        exact h0
      obtain ⟨r, hr, hr1, hr2, hr3, hr4⟩ :=
        whileIneg_spec ph tlim (ph.getD i 0) (ph.length + 1 - ineg) ineg i
          (by omega) (hin h) h hstop
      have hrneg : r = specIneg ph tlim i := by
        symm
        apply leastIdx_eq_of
        · omega
        · intro j hj
          simp only [decide_eq_false_iff_not, not_le]
          rcases Nat.lt_or_ge j ineg with hj' | hj'
          · exact hNpre h j hj'
          · exact hr3 j hj' hj
        · intro _
          simp only [decide_eq_true_eq]
          exact not_lt.mp hr4
      -- the ipos loop gives exactly specIpos i
      obtain ⟨⟨hp1, hp2⟩, hp3, hp4⟩ :=
        whileIpos_spec ph tlim (ph.getD i 0) (ph.length - ipos) ipos
          (by omega) hip
      have hrpos : whileIpos ph tlim (ph.getD i 0) (ph.length - ipos) ipos =
          specIpos ph tlim i := by
        symm
        apply leastIdx_eq_of
        · exact hp2
        · intro j hj
          simp only [decide_eq_false_iff_not, not_le]
          rcases Nat.lt_or_ge j ipos with hj' | hj'
          · exact hIpre h j hj'
          · exact hp3 j hj' hj
        · intro hlt
          simp only [decide_eq_true_eq]
          exact not_lt.mp (hp4 hlt)
      -- all windows [ineg, ipos) stay strict at the next query point
      have hnext : kdeGo ph tlim k (i+1)
          (whileIpos ph tlim (ph.getD i 0) (ph.length - ipos) ipos) r =
          some ((List.range' (i+1) (ph.length - (i+1))).map
            (fun x => (specIneg ph tlim x, specIpos ph tlim x))) := by
        apply ih (i+1) _ r (by omega) (by omega) hp2
        · intro _
          omega
        · intro h' j hj
          have hmono : ph.getD i 0 ≤ ph.getD (i+1) 0 :=
            getD_mono_of_pairwise ph hs (by omega) h'
          have hji : ((ph.getD j 0 - ph.getD i 0 : ℤ) : ℚ) < tlim := by
            rcases Nat.lt_or_ge j ipos with hj' | hj'
            · exact hIpre h j hj'
            · exact hp3 j hj' hj
          have hcast : ((ph.getD i 0 : ℤ) : ℚ) ≤ ((ph.getD (i+1) 0 : ℤ) : ℚ) := by
            exact_mod_cast hmono
          push_cast at hji ⊢
          linarith
        · intro h' j hj
          have hmono : ph.getD i 0 ≤ ph.getD (i+1) 0 :=
            getD_mono_of_pairwise ph hs (by omega) h'
          have hji : tlim < ((ph.getD i 0 - ph.getD j 0 : ℤ) : ℚ) := by
            rcases Nat.lt_or_ge j ineg with hj' | hj'
            · exact hNpre h j hj'
            · exact hr3 j hj' hj
          push_cast at hji ⊢
          have hcast : ((ph.getD i 0 : ℤ) : ℚ) ≤ ((ph.getD (i+1) 0 : ℤ) : ℚ) := by
            exact_mod_cast hmono
          linarith
      rw [kdeGo, if_pos h, hr, Option.some_bind, hnext, Option.map_some']
      have hlen : ph.length - i = (ph.length - (i+1)) + 1 := by omega
      rw [hlen, List.range'_succ, List.map_cons, hrneg, hrpos]
    · rw [kdeGo, if_neg h]
      have : ph.length - i = 0 := by omega
      rw [this]
      rfl

theorem kdeWindows_spec (ph : List ℤ) (tau : ℚ)
    (hs : List.Pairwise (· ≤ ·) ph) (htau : 0 ≤ tau) :
    kdeWindows ph tau =
      some ((List.range ph.length).map
        (fun x => (specIneg ph (5 * tau) x, specIpos ph (5 * tau) x))) := by
  rw [kdeWindows, List.range_eq_range' ph.length]
  have h5 : (0 : ℚ) ≤ 5 * tau := by linarith
  have := kdeGo_spec ph (5 * tau) hs h5 ph.length 0 0 0 (by omega) (by omega)
    (by omega) (fun _ => Nat.zero_le _) (fun _ j hj => absurd hj (by omega))
    (fun _ j hj => absurd hj (by omega))
  rw [this]
  rw [Nat.sub_zero]

/-!
## Properties of the spec window boundaries
-/

theorem specIneg_le_len (ph : List ℤ) (tlim : ℚ) (i : ℕ) :
    specIneg ph tlim i ≤ ph.length :=
  leastIdx_le _ _

theorem specIpos_le_len (ph : List ℤ) (tlim : ℚ) (i : ℕ) :
    specIpos ph tlim i ≤ ph.length :=
  leastIdx_le _ _

theorem specIneg_at (ph : List ℤ) (tlim : ℚ) (i : ℕ)
    (h : specIneg ph tlim i < ph.length) :
    ((ph.getD i 0 - ph.getD (specIneg ph tlim i) 0 : ℤ) : ℚ) ≤ tlim := by
  have h2 := leastIdx_true
    (fun j => decide (((ph.getD i 0 - ph.getD j 0 : ℤ) : ℚ) ≤ tlim)) ph.length h
  simp only [decide_eq_true_eq] at h2
  exact h2

theorem specIneg_before (ph : List ℤ) (tlim : ℚ) (i : ℕ) {j : ℕ}
    (h : j < specIneg ph tlim i) :
    tlim < ((ph.getD i 0 - ph.getD j 0 : ℤ) : ℚ) := by
  have h2 := leastIdx_false
    (fun j => decide (((ph.getD i 0 - ph.getD j 0 : ℤ) : ℚ) ≤ tlim)) ph.length j h
  simp only [decide_eq_false_iff_not, not_le] at h2
  exact h2

theorem specIpos_at (ph : List ℤ) (tlim : ℚ) (i : ℕ)
    (h : specIpos ph tlim i < ph.length) :
    tlim ≤ ((ph.getD (specIpos ph tlim i) 0 - ph.getD i 0 : ℤ) : ℚ) := by
  have h2 := leastIdx_true
    (fun j => decide (tlim ≤ ((ph.getD j 0 - ph.getD i 0 : ℤ) : ℚ))) ph.length h
  simp only [decide_eq_true_eq] at h2
  exact h2

theorem specIpos_before (ph : List ℤ) (tlim : ℚ) (i : ℕ) {j : ℕ}
    (h : j < specIpos ph tlim i) :
    ((ph.getD j 0 - ph.getD i 0 : ℤ) : ℚ) < tlim := by
  have h2 := leastIdx_false
    (fun j => decide (tlim ≤ ((ph.getD j 0 - ph.getD i 0 : ℤ) : ℚ))) ph.length j h
  simp only [decide_eq_false_iff_not, not_le] at h2
  exact h2

theorem specIneg_le_self (ph : List ℤ) (tlim : ℚ) (h0 : 0 ≤ tlim) {i : ℕ}
    (hi : i < ph.length) : specIneg ph tlim i ≤ i := by
  apply leastIdx_le_of_true _ _ _ hi
  simp only [sub_self, Int.cast_zero, decide_eq_true_eq]
  exact h0

theorem lt_specIpos (ph : List ℤ) (tlim : ℚ)
    (hs : List.Pairwise (· ≤ ·) ph) (h0 : 0 < tlim) {i : ℕ}
    (hi : i < ph.length) : i < specIpos ph tlim i := by
  by_contra hcon
  have hle : specIpos ph tlim i ≤ i := by omega
  have hlt : specIpos ph tlim i < ph.length := by omega
  have htrue := specIpos_at ph tlim i hlt
  have hmono : ph.getD (specIpos ph tlim i) 0 ≤ ph.getD i 0 :=
    getD_mono_of_pairwise ph hs hle hi
  have hc : ((ph.getD (specIpos ph tlim i) 0 : ℤ) : ℚ) ≤
      ((ph.getD i 0 : ℤ) : ℚ) := by exact_mod_cast hmono
  push_cast at htrue
  linarith

theorem specIneg_mono (ph : List ℤ) (tlim : ℚ)
    (hs : List.Pairwise (· ≤ ·) ph) {i j : ℕ} (hij : i ≤ j)
    (hj : j < ph.length) : specIneg ph tlim i ≤ specIneg ph tlim j := by
  apply leastIdx_mono_pred
  intro x _ hx
  simp only [decide_eq_true_eq] at hx ⊢
  have hmono : ph.getD i 0 ≤ ph.getD j 0 := getD_mono_of_pairwise ph hs hij hj
  have hc : ((ph.getD i 0 : ℤ) : ℚ) ≤ ((ph.getD j 0 : ℤ) : ℚ) := by
    exact_mod_cast hmono
  push_cast at hx ⊢
  linarith

theorem specIpos_mono (ph : List ℤ) (tlim : ℚ)
    (hs : List.Pairwise (· ≤ ·) ph) {i j : ℕ} (hij : i ≤ j)
    (hj : j < ph.length) : specIpos ph tlim i ≤ specIpos ph tlim j := by
  apply leastIdx_mono_pred
  intro x _ hx
  simp only [decide_eq_true_eq] at hx ⊢
  have hmono : ph.getD i 0 ≤ ph.getD j 0 := getD_mono_of_pairwise ph hs hij hj
  have hc : ((ph.getD i 0 : ℤ) : ℚ) ≤ ((ph.getD j 0 : ℤ) : ℚ) := by
    exact_mod_cast hmono
  push_cast at hx ⊢
  linarith

theorem mem_window_iff (ph : List ℤ) (tlim : ℚ)
    (hs : List.Pairwise (· ≤ ·) ph) {i j : ℕ}
    (_hi : i < ph.length) (hj : j < ph.length) :
    (specIneg ph tlim i ≤ j ∧ j < specIpos ph tlim i) ↔
      (-tlim ≤ ((ph.getD j 0 - ph.getD i 0 : ℤ) : ℚ) ∧
        ((ph.getD j 0 - ph.getD i 0 : ℤ) : ℚ) < tlim) := by
  constructor
  · rintro ⟨h1, h2⟩
    constructor
    · have ha : specIneg ph tlim i < ph.length := by omega
      have htrue := specIneg_at ph tlim i ha
      have hmono : ph.getD (specIneg ph tlim i) 0 ≤ ph.getD j 0 :=
        getD_mono_of_pairwise ph hs h1 hj
      have hc : ((ph.getD (specIneg ph tlim i) 0 : ℤ) : ℚ) ≤
          ((ph.getD j 0 : ℤ) : ℚ) := by exact_mod_cast hmono
      push_cast at htrue ⊢
      linarith
    · have := specIpos_before ph tlim i h2
      exact this
  · rintro ⟨h1, h2⟩
    constructor
    · by_contra hcon
      have hbefore := specIneg_before ph tlim i (j := j) (by omega)
      push_cast at h1 hbefore
      linarith
    · by_contra hcon
      have hb : specIpos ph tlim i ≤ j := by omega
      have hblt : specIpos ph tlim i < ph.length := by omega
      have htrue := specIpos_at ph tlim i hblt
      have hmono : ph.getD (specIpos ph tlim i) 0 ≤ ph.getD j 0 :=
        getD_mono_of_pairwise ph hs hb hj
      have hc : ((ph.getD (specIpos ph tlim i) 0 : ℤ) : ℚ) ≤
          ((ph.getD j 0 : ℤ) : ℚ) := by exact_mod_cast hmono
      push_cast at htrue h2
      linarith

theorem windowCount_eq (ph : List ℤ) (tau : ℚ)
    (hs : List.Pairwise (· ≤ ·) ph) {i : ℕ}
    (hi : i < ph.length) :
    windowCount ph tau i = specIpos ph (5 * tau) i - specIneg ph (5 * tau) i := by
  rw [windowCount]
  have hfil : (Finset.range ph.length).filter
      (fun j : ℕ => -(5 * tau) ≤ ((ph.getD j 0 - ph.getD i 0 : ℤ) : ℚ) ∧
        ((ph.getD j 0 - ph.getD i 0 : ℤ) : ℚ) < 5 * tau) =
      Finset.Ico (specIneg ph (5 * tau) i) (specIpos ph (5 * tau) i) := by
    ext j
    simp only [Finset.mem_filter, Finset.mem_range, Finset.mem_Ico]
    constructor
    · rintro ⟨hjn, hcond⟩
      exact (mem_window_iff ph (5 * tau) hs hi hjn).mpr hcond
    · intro hmem
      have hjn : j < ph.length := by
        have := specIpos_le_len ph (5 * tau) i
        omega
      exact ⟨hjn, (mem_window_iff ph (5 * tau) hs hi hjn).mp hmem⟩
  rw [hfil, Nat.card_Ico]

/-!
## Lemmas about the m-tuple functions
-/

theorem pySliceFrom_of_ge_one (ph : List ℤ) (m : ℕ) (hm : 1 ≤ m) :
    pySliceFrom ph ((m : ℤ) - 1) = ph.drop (m - 1) := by
  rw [pySliceFrom, if_pos (by omega)]
  congr 1
  omega

theorem pySliceTo_of_le (ph : List ℤ) (m : ℕ) (hm : m ≤ ph.length) :
    pySliceTo ph ((ph.length : ℤ) - m + 1) = ph.take (ph.length - m + 1) := by
  rw [pySliceTo, if_pos (by omega)]
  congr 1
  omega

theorem length_drop_slice (ph : List ℤ) (m : ℕ) (hm : 1 ≤ m)
    (hmN : m ≤ ph.length) : (ph.drop (m - 1)).length = ph.length - m + 1 := by
  rw [List.length_drop]
  omega

theorem length_take_slice (ph : List ℤ) (m : ℕ) (hm : 1 ≤ m)
    (hmN : m ≤ ph.length) :
    (ph.take (ph.length - m + 1)).length = ph.length - m + 1 := by
  rw [List.length_take, min_eq_left (by omega)]

theorem bcast_of_length_eq {β : Type} (f : ℤ → ℤ → β) (a b : List ℤ)
    (h : a.length = b.length) : bcast f a b = some (List.zipWith f a b) := by
  rw [bcast, if_pos h]

theorem bcast_nil_left {β : Type} (f : ℤ → ℤ → β) (b : List ℤ) :
    bcast f [] b = if 2 ≤ b.length then none else some [] := by
  match b with
  | [] => rfl
  | [y] => rfl
  | y1 :: y2 :: ys =>
    rw [bcast, if_neg (by simp), if_neg (by simp), if_neg (by simp),
      if_pos (by simp only [List.length_cons]; omega)]

theorem getD_zipWith {β : Type} (f : ℤ → ℤ → β) (a b : List ℤ) (i : ℕ) (d : β)
    (hia : i < a.length) (hib : i < b.length) :
    (List.zipWith f a b).getD i d = f (a.getD i 0) (b.getD i 0) := by
  rw [List.getD_eq_getElem _ _ (by rw [List.length_zipWith]; omega),
    List.getElem_zipWith, List.getD_eq_getElem _ _ hia,
    List.getD_eq_getElem _ _ hib]

theorem getD_drop (l : List ℤ) (n i : ℕ) (h : n + i < l.length) (d : ℤ) :
    (l.drop n).getD i d = l.getD (n + i) d := by
  rw [List.getD_eq_getElem _ _ (by rw [List.length_drop]; omega),
    List.getElem_drop, List.getD_eq_getElem _ _ h]

theorem getD_take (l : List ℤ) (n i : ℕ) (hi : i < n) (h : i < l.length)
    (d : ℤ) : (l.take n).getD i d = l.getD i d := by
  rw [List.getD_eq_getElem _ _ (by rw [List.length_take]; omega),
    List.getElem_take, List.getD_eq_getElem _ _ h]

theorem mtuple_delays_eq (ph : List ℤ) (m : ℕ) (hm : 1 ≤ m)
    (hmN : m ≤ ph.length) : mtuple_delays ph m = some (delaysL ph m) := by
  rw [mtuple_delays, pySliceFrom_of_ge_one ph m hm, pySliceTo_of_le ph m hmN,
    bcast_of_length_eq, delaysL]
  rw [length_drop_slice ph m hm hmN, length_take_slice ph m hm hmN]

theorem mtuple_rates_eq (ph : List ℤ) (m : ℕ) (hm : 1 ≤ m)
    (hmN : m ≤ ph.length) : mtuple_rates ph m = some (ratesL ph m) := by
  rw [mtuple_rates, pySliceFrom_of_ge_one ph m hm, pySliceTo_of_le ph m hmN,
    bcast_of_length_eq, Option.map_some', ratesL, delaysL]
  rw [length_drop_slice ph m hm hmN, length_take_slice ph m hm hmN]

theorem mtuple_rates_t_eq (ph : List ℤ) (m : ℕ) (hm : 1 ≤ m)
    (hmN : m ≤ ph.length) : mtuple_rates_t ph m = some (ratesTL ph m) := by
  rw [mtuple_rates_t, pySliceFrom_of_ge_one ph m hm, pySliceTo_of_le ph m hmN,
    bcast_of_length_eq, ratesTL]
  rw [length_drop_slice ph m hm hmN, length_take_slice ph m hm hmN]

theorem delaysL_length (ph : List ℤ) (m : ℕ) (hm : 1 ≤ m)
    (hmN : m ≤ ph.length) : (delaysL ph m).length = ph.length - m + 1 := by
  rw [delaysL, List.length_zipWith, length_drop_slice ph m hm hmN,
    length_take_slice ph m hm hmN, min_self]

theorem ratesL_length (ph : List ℤ) (m : ℕ) (hm : 1 ≤ m)
    (hmN : m ≤ ph.length) : (ratesL ph m).length = ph.length - m + 1 := by
  rw [ratesL, List.length_map, delaysL_length ph m hm hmN]

theorem ratesTL_length (ph : List ℤ) (m : ℕ) (hm : 1 ≤ m)
    (hmN : m ≤ ph.length) : (ratesTL ph m).length = ph.length - m + 1 := by
  rw [ratesTL, List.length_zipWith, length_drop_slice ph m hm hmN,
    length_take_slice ph m hm hmN, min_self]

theorem delaysL_getD (ph : List ℤ) (m : ℕ) (hm : 1 ≤ m) (hmN : m ≤ ph.length)
    {i : ℕ} (hi : i < ph.length - m + 1) :
    (delaysL ph m).getD i 0 = ph.getD (i + m - 1) 0 - ph.getD i 0 := by
  have hdl : (ph.drop (m-1)).length = ph.length - m + 1 :=
    length_drop_slice ph m hm hmN
  have htl : (ph.take (ph.length - m + 1)).length = ph.length - m + 1 :=
    length_take_slice ph m hm hmN
  rw [delaysL, getD_zipWith _ _ _ _ _ (by omega) (by omega),
    getD_drop _ _ _ (by omega), getD_take _ _ _ (by omega) (by omega)]
  have hidx : m - 1 + i = i + m - 1 := by omega
  rw [hidx]

theorem ratesTL_getD (ph : List ℤ) (m : ℕ) (hm : 1 ≤ m) (hmN : m ≤ ph.length)
    {i : ℕ} (hi : i < ph.length - m + 1) :
    (ratesTL ph m).getD i 0 =
      (((ph.getD (i + m - 1) 0 : ℤ) : ℚ) + ((ph.getD i 0 : ℤ) : ℚ)) / 2 := by
  have hdl : (ph.drop (m-1)).length = ph.length - m + 1 :=
    length_drop_slice ph m hm hmN
  have htl : (ph.take (ph.length - m + 1)).length = ph.length - m + 1 :=
    length_take_slice ph m hm hmN
  rw [ratesTL, getD_zipWith _ _ _ _ _ (by omega) (by omega),
    getD_drop _ _ _ (by omega), getD_take _ _ _ (by omega) (by omega)]
  have hidx : m - 1 + i = i + m - 1 := by omega
  rw [hidx]

theorem ratesL_getD (ph : List ℤ) (m : ℕ) (hm : 1 ≤ m) (hmN : m ≤ ph.length)
    {i : ℕ} (hi : i < ph.length - m + 1) :
    (ratesL ph m).getD i 0 = (m : ℚ) / (((delaysL ph m).getD i 0 : ℤ) : ℚ) := by
  have hlen := delaysL_length ph m hm hmN
  rw [ratesL, List.getD_eq_getElem _ _ (by simp only [List.length_map]; omega),
    List.getElem_map, List.getD_eq_getElem _ _ (by omega)]

theorem bcast_slices_smallN (ph : List ℤ) (m : ℕ) {β : Type} (f : ℤ → ℤ → β)
    (h0 : 0 < ph.length) (hNm : ph.length < m) :
    bcast f (pySliceFrom ph ((m : ℤ) - 1))
        (pySliceTo ph ((ph.length : ℤ) - m + 1)) =
      if ph.length + 2 ≤ m ∧ m + 1 ≤ 2 * ph.length then none else some [] := by
  have ha : pySliceFrom ph ((m : ℤ) - 1) = [] := by
    rw [pySliceFrom, if_pos (by omega)]
    apply List.drop_eq_nil_of_le
    omega
  by_cases hm2 : ph.length + 2 ≤ m
  · have hb : pySliceTo ph ((ph.length : ℤ) - m + 1) =
        ph.take (2 * ph.length + 1 - m) := by
      rw [pySliceTo, if_neg (by omega)]
      congr 1
      omega
    rw [ha, hb, bcast_nil_left, List.length_take]
    by_cases hcond : m + 1 ≤ 2 * ph.length
    · rw [if_pos (by omega), if_pos ⟨hm2, hcond⟩]
    · rw [if_neg (by omega), if_neg (fun h => hcond h.2)]
  · have hm1 : m = ph.length + 1 := by omega
    have hb : pySliceTo ph ((ph.length : ℤ) - m + 1) = [] := by
      rw [pySliceTo, if_pos (by omega)]
      have h2 : ((ph.length : ℤ) - m + 1).toNat = 0 := by omega
      rw [h2, List.take_zero]
    rw [ha, hb, bcast_nil_left, if_neg (by simp), if_neg (fun h => by omega)]

theorem mtuple_delays_smallN (ph : List ℤ) (m : ℕ)
    (h0 : 0 < ph.length) (hNm : ph.length < m) :
    mtuple_delays ph m =
      if ph.length + 2 ≤ m ∧ m + 1 ≤ 2 * ph.length then none else some [] :=
  bcast_slices_smallN ph m _ h0 hNm

theorem mtuple_rates_smallN (ph : List ℤ) (m : ℕ)
    (h0 : 0 < ph.length) (hNm : ph.length < m) :
    mtuple_rates ph m =
      if ph.length + 2 ≤ m ∧ m + 1 ≤ 2 * ph.length then none else some [] := by
  rw [mtuple_rates, bcast_slices_smallN ph m _ h0 hNm]
  by_cases hcond : ph.length + 2 ≤ m ∧ m + 1 ≤ 2 * ph.length
  · rw [if_pos hcond, if_pos hcond]
    rfl
  · rw [if_neg hcond, if_neg hcond]
    rfl

/-!
## Claim theorems: the m-tuple estimator
-/

/-- C8: for every sorted timestamp array `ph` of length `N ≥ m` and every
`m ≥ 1`, `mtuple_delays` returns the array with
`delays[i] = ph[i+m-1] - ph[i]` for `i` in `0..N-m`, and `mtuple_rates_t`
returns the array with `time_axis[i] = 0.5*(ph[i] + ph[i+m-1])`, the midpoint
of each m-tuple. -/
theorem c8_mtuple_values (ph : List ℤ) (m : ℕ) (hm : 1 ≤ m)
    (hmN : m ≤ ph.length) {i : ℕ} (hi : i ≤ ph.length - m) :
    mtuple_delays ph m = some (delaysL ph m) ∧
    (delaysL ph m).getD i 0 = ph.getD (i + m - 1) 0 - ph.getD i 0 ∧
    mtuple_rates_t ph m = some (ratesTL ph m) ∧
    (ratesTL ph m).getD i 0 =
      (1/2) * (((ph.getD i 0 : ℤ) : ℚ) + ((ph.getD (i + m - 1) 0 : ℤ) : ℚ)) := by
  have hi' : i < ph.length - m + 1 := by omega
  refine ⟨mtuple_delays_eq ph m hm hmN, delaysL_getD ph m hm hmN hi',
    mtuple_rates_t_eq ph m hm hmN, ?_⟩
  rw [ratesTL_getD ph m hm hmN hi']
  ring

/-- Witness for C8 at `ph = [0, 10, 25]`, `m = 2`, `i = 1`. -/
theorem c8_witness :
    mtuple_delays [(0:ℤ), 10, 25] 2 = some (delaysL [(0:ℤ), 10, 25] 2) ∧
    (delaysL [(0:ℤ), 10, 25] 2).getD 1 0 =
      [(0:ℤ), 10, 25].getD (1 + 2 - 1) 0 - [(0:ℤ), 10, 25].getD 1 0 ∧
    mtuple_rates_t [(0:ℤ), 10, 25] 2 = some (ratesTL [(0:ℤ), 10, 25] 2) ∧
    (ratesTL [(0:ℤ), 10, 25] 2).getD 1 0 =
      (1/2) * ((([(0:ℤ), 10, 25].getD 1 0 : ℤ) : ℚ) +
        (([(0:ℤ), 10, 25].getD (1 + 2 - 1) 0 : ℤ) : ℚ)) :=
  c8_mtuple_values [(0:ℤ), 10, 25] 2 (by norm_num) (by norm_num) (by norm_num)

/-- C3 (amended): for sorted `ph` with `N ≥ m` and `m ≥ 1` the three arrays
exist and all have length `N - m + 1`; the exact identity
`rates[i] * delays[i] = m` additionally needs strictly increasing timestamps
and `m ≥ 2` (a zero delay makes `rates[i]` non-finite in numpy -- the product
is NaN there, and in this `ℚ` model `m/0 = 0` -- so the identity fails on
duplicate timestamps and for `m = 1`, where every delay is `0`). -/
theorem c3_mtuple_shapes_and_identity (ph : List ℤ) (m : ℕ) (hm : 1 ≤ m)
    (hmN : m ≤ ph.length) :
    mtuple_delays ph m = some (delaysL ph m) ∧
    mtuple_rates ph m = some (ratesL ph m) ∧
    mtuple_rates_t ph m = some (ratesTL ph m) ∧
    (delaysL ph m).length = ph.length - m + 1 ∧
    (ratesL ph m).length = ph.length - m + 1 ∧
    (ratesTL ph m).length = ph.length - m + 1 ∧
    (List.Pairwise (· < ·) ph → 2 ≤ m → ∀ i, i < ph.length - m + 1 →
      (ratesL ph m).getD i 0 * (((delaysL ph m).getD i 0 : ℤ) : ℚ) = m) := by
  refine ⟨mtuple_delays_eq ph m hm hmN, mtuple_rates_eq ph m hm hmN,
    mtuple_rates_t_eq ph m hm hmN, delaysL_length ph m hm hmN,
    ratesL_length ph m hm hmN, ratesTL_length ph m hm hmN, ?_⟩
  intro hstrict hm2 i hi
  rw [ratesL_getD ph m hm hmN hi, delaysL_getD ph m hm hmN hi]
  have hlt : ph.getD i 0 < ph.getD (i + m - 1) 0 :=
    getD_strict_mono_of_pairwise ph hstrict (by omega) (by omega)
  have hne : ((ph.getD (i + m - 1) 0 - ph.getD i 0 : ℤ) : ℚ) ≠ 0 := by
    have h2 : ph.getD (i + m - 1) 0 - ph.getD i 0 ≠ 0 := by omega
    exact_mod_cast h2
  rw [div_mul_cancel₀ _ hne]

/-- Counterexample to C3 as stated: with `ph = [0]`, `m = 1` (a sorted array
with `N ≥ m ≥ 1`) the only delay is `0` and the rate is `1/0`, whose product
with the delay is not `1`; with `ph = [0, 0]`, `m = 2` (sorted with a
duplicate) the same happens against `2`. -/
theorem c3_counterexample :
    mtuple_delays [(0:ℤ)] 1 = some [0] ∧
    mtuple_rates [(0:ℤ)] 1 = some [0] ∧
    mtuple_delays [(0:ℤ), 0] 2 = some [0] ∧
    mtuple_rates [(0:ℤ), 0] 2 = some [0] ∧
    (0:ℚ) * ((0:ℤ) : ℚ) ≠ ((1:ℕ) : ℚ) ∧
    (0:ℚ) * ((0:ℤ) : ℚ) ≠ ((2:ℕ) : ℚ) := by
  refine ⟨?_, ?_, ?_, ?_, by norm_num, by norm_num⟩ <;>
    norm_num [mtuple_delays, mtuple_rates, pySliceFrom, pySliceTo, bcast]

/-- Witness for C3 at `ph = [0, 10, 25]`, `m = 2` (strictly increasing). -/
theorem c3_witness :
    (ratesL [(0:ℤ), 10, 25] 2).getD 0 0 *
      (((delaysL [(0:ℤ), 10, 25] 2).getD 0 0 : ℤ) : ℚ) = 2 ∧
    (delaysL [(0:ℤ), 10, 25] 2).length = 3 - 2 + 1 :=
  ⟨(c3_mtuple_shapes_and_identity [(0:ℤ), 10, 25] 2 (by norm_num)
      (by norm_num)).2.2.2.2.2.2 (by decide) (by norm_num) 0 (by norm_num),
    (c3_mtuple_shapes_and_identity [(0:ℤ), 10, 25] 2 (by norm_num)
      (by norm_num)).2.2.2.1⟩

/-- C7: for `N < m` the reductions `mtuple_delays_min` and `mtuple_rates_max`
return the `None` sentinel (not an exception, not zero); for `N ≥ m` they
return the minimum m-photon delay and the maximum m-photon rate. -/
theorem c7_reductions_sentinel (ph : List ℤ) (m : ℕ) (hm : 1 ≤ m) :
    (ph.length < m →
      mtuple_delays_min ph m = none ∧ mtuple_rates_max ph m = none) ∧
    (m ≤ ph.length →
      (∃ d, mtuple_delays_min ph m = some d ∧ d ∈ delaysL ph m ∧
        ∀ x ∈ delaysL ph m, d ≤ x) ∧
      (∃ r, mtuple_rates_max ph m = some r ∧ r ∈ ratesL ph m ∧
        ∀ x ∈ ratesL ph m, x ≤ r)) := by
  constructor
  · intro hlt
    rw [mtuple_delays_min, if_pos hlt, mtuple_rates_max, if_pos hlt]
    exact ⟨rfl, rfl⟩
  · intro hmN
    have hd : mtuple_delays_min ph m = (delaysL ph m).min? := by
      rw [mtuple_delays_min, if_neg (by omega), mtuple_delays_eq ph m hm hmN,
        Option.some_bind]
    have hr : mtuple_rates_max ph m = (ratesL ph m).max? := by
      rw [mtuple_rates_max, if_neg (by omega), mtuple_rates_eq ph m hm hmN,
        Option.some_bind]
    have hlen : (delaysL ph m).length = ph.length - m + 1 :=
      delaysL_length ph m hm hmN
    have hne : delaysL ph m ≠ [] := by
      intro hnil
      rw [hnil] at hlen
      simp at hlen
    have hne2 : ratesL ph m ≠ [] := by
      rw [ratesL]
      simpa using hne
    constructor
    · obtain ⟨x, xs, hxx⟩ := List.exists_cons_of_ne_nil hne
      have hsome : (delaysL ph m).min?.isSome := by
        rw [hxx, List.min?_cons]
        rfl
      obtain ⟨d, hd2⟩ := Option.isSome_iff_exists.mp hsome
      refine ⟨d, by rw [hd, hd2], ?_⟩
      have := (List.min?_eq_some_iff (fun a => le_refl a)
        (fun a b => min_choice a b) (fun a b c => le_min_iff)).mp hd2
      exact this
    · obtain ⟨x, xs, hxx⟩ := List.exists_cons_of_ne_nil hne2
      have hsome : (ratesL ph m).max?.isSome := by
        rw [hxx, List.max?_cons]
        rfl
      obtain ⟨r, hr2⟩ := Option.isSome_iff_exists.mp hsome
      refine ⟨r, by rw [hr, hr2], ?_⟩
      have := (List.max?_eq_some_iff (fun a => le_refl a)
        (fun a b => max_choice a b) (fun a b c => max_le_iff)).mp hr2
      exact this

/-- Witness for C7: both branches, at `ph = [0, 10]` with `m = 3` (`N < m`)
and at `ph = [0, 10, 25]` with `m = 2` (`N ≥ m`, a minimum exists). -/
theorem c7_witness :
    (mtuple_delays_min [(0:ℤ), 10] 3 = none ∧
      mtuple_rates_max [(0:ℤ), 10] 3 = none) ∧
    (mtuple_delays_min [(0:ℤ), 10, 25] 2).isSome = true :=
  ⟨(c7_reductions_sentinel [(0:ℤ), 10] 3 (by norm_num)).1 (by norm_num), by
    obtain ⟨d, hd, -, -⟩ := ((c7_reductions_sentinel [(0:ℤ), 10, 25] 2
      (by norm_num)).2 (by norm_num)).1
    rw [hd]
    rfl⟩

/-- C10: for `0 < N < m` the array-producing m-tuple functions raise a numpy
broadcasting error exactly when `N ≤ m - 2` and `2N ≥ m + 1` (the two slices
then have lengths `0` and `2N-m+1 ≥ 2`); every other `N < m` shape yields an
empty array. -/
theorem c10_broadcast_error_characterization (ph : List ℤ) (m : ℕ)
    (h0 : 0 < ph.length) (hNm : ph.length < m) :
    (mtuple_delays ph m = none ↔
      (ph.length + 2 ≤ m ∧ m + 1 ≤ 2 * ph.length)) ∧
    (mtuple_rates ph m = none ↔
      (ph.length + 2 ≤ m ∧ m + 1 ≤ 2 * ph.length)) ∧
    (¬ (ph.length + 2 ≤ m ∧ m + 1 ≤ 2 * ph.length) →
      mtuple_delays ph m = some [] ∧ mtuple_rates ph m = some []) := by
  rw [mtuple_delays_smallN ph m h0 hNm, mtuple_rates_smallN ph m h0 hNm]
  by_cases hcond : ph.length + 2 ≤ m ∧ m + 1 ≤ 2 * ph.length
  · simp only [if_pos hcond]
    exact ⟨by simp [hcond], by simp [hcond], fun h => absurd hcond h⟩
  · simp only [if_neg hcond]
    exact ⟨by simp [hcond], by simp [hcond], fun _ => by simp⟩

/-- Witness for C10 at `N = 3`, `m = 5` (broadcasting error) and at `N = 1`,
`m = 2` (empty result). -/
theorem c10_witness :
    (mtuple_delays [(0:ℤ), 1, 2] 5 = none ∧
      mtuple_rates [(0:ℤ), 1, 2] 5 = none) ∧
    (mtuple_delays [(0:ℤ)] 2 = some [] ∧ mtuple_rates [(0:ℤ)] 2 = some []) :=
  ⟨⟨(c10_broadcast_error_characterization [(0:ℤ), 1, 2] 5 (by norm_num)
        (by norm_num)).1.mpr (by norm_num),
      (c10_broadcast_error_characterization [(0:ℤ), 1, 2] 5 (by norm_num)
        (by norm_num)).2.1.mpr (by norm_num)⟩,
    (c10_broadcast_error_characterization [(0:ℤ)] 2 (by norm_num)
      (by norm_num)).2.2 (by norm_num)⟩

/-!
## Claim theorems: the self-evaluation KDE
-/

theorem getD_map_range {β : Type} (f : ℕ → β) (n : ℕ) {i : ℕ} (hi : i < n)
    (d : β) : ((List.range n).map f).getD i d = f i := by
  rw [List.getD_eq_getElem _ _ (by simpa using hi)]
  simp

theorem int16wrap_eq_self (z : ℤ) (h1 : 0 ≤ z) (h2 : z ≤ 32767) :
    int16wrap z = z := by
  rw [int16wrap]
  omega

/-- C1 (amended): for sorted `ph`, `tau > 0` and window populations within
`int16` range, `nph[i]` is the exact number of indices `j` with
`-5*tau ≤ ph[j] - ph[i] < 5*tau`: a timestamp at distance exactly `5*tau`
below `ph[i]` is counted, one at distance exactly `5*tau` above it is not. -/
theorem c1_nph_halfopen_window_count (ph : List ℤ) (tau : ℚ)
    (hs : List.Pairwise (· ≤ ·) ph) (htau : 0 < tau)
    (hsmall : ph.length ≤ 32767) :
    kde_nph ph tau =
      some ((List.range ph.length).map
        (fun i => (windowCount ph tau i : ℤ))) := by
  rw [kde_nph, kdeWindows_spec ph tau hs (le_of_lt htau), Option.map_some',
    List.map_map]
  congr 1
  apply List.map_congr_left
  intro i hi
  rw [List.mem_range] at hi
  have hwc := windowCount_eq ph tau hs hi
  have ha := specIneg_le_self ph (5 * tau) (by linarith) hi
  have hb := lt_specIpos ph (5 * tau) hs (by linarith) hi
  have hble := specIpos_le_len ph (5 * tau) i
  show int16wrap ((specIpos ph (5 * tau) i : ℤ) - (specIneg ph (5 * tau) i : ℤ))
    = (windowCount ph tau i : ℤ)
  rw [hwc]
  have hcast : ((specIpos ph (5 * tau) i : ℕ) : ℤ) -
      ((specIneg ph (5 * tau) i : ℕ) : ℤ) =
      ((specIpos ph (5 * tau) i - specIneg ph (5 * tau) i : ℕ) : ℤ) := by
    omega
  rw [hcast]
  apply int16wrap_eq_self
  · omega
  · omega

/-- Witness for C1 (amended) at `ph = [0, 5]`, `tau = 1`. -/
theorem c1_witness :
    List.Pairwise (· ≤ ·) [(0:ℤ), 5] ∧ (0:ℚ) < 1 ∧
    kde_nph [(0:ℤ), 5] 1 =
      some ((List.range (List.length [(0:ℤ), 5])).map
        (fun i => (windowCount [(0:ℤ), 5] 1 i : ℤ))) :=
  ⟨by decide, by norm_num,
    c1_nph_halfopen_window_count [(0:ℤ), 5] 1 (by decide) (by norm_num)
      (by norm_num)⟩

/-- Counterexample to C1 as stated: with `ph = [0, 5]` and `tau = 1` the
timestamp `5` lies at distance exactly `5*tau` to the right of `ph[0] = 0`,
so the claimed closed-ball count at index `0` is `2`, but the loop stores
`nph[0] = 1` (the strict comparison `ph[ipos] - t < tau_lim` excludes the
right edge). -/
theorem c1_counterexample :
    kde_nph [(0:ℤ), 5] 1 = some [1, 2] ∧
    claimNphCount [(0:ℤ), 5] 1 0 = 2 := by
  constructor
  · norm_num [kde_nph, kdeWindows, kdeGo, whileIpos, whileIneg, int16wrap]
  · rw [claimNphCount, show (List.length [(0:ℤ), 5]) = 1 + 1 from rfl,
      Finset.range_succ, Finset.filter_insert]
    norm_num [Finset.range_one, Finset.filter_singleton]

/-- C2: for sorted `ph` and `tau > 0`, `rates[i]` is exactly the sum of
`exp(-|ph[j] - ph[i]| / tau)` over the indices `j` in `[ineg, ipos)` where
`ineg` is the smallest index with `ph[i] - ph[ineg] ≤ 5*tau` and `ipos` is
the smallest index with `ph[ipos] - ph[i] ≥ 5*tau` (or `N` when none
exists). -/
theorem c2_rates_window_sum (ph : List ℤ) (tau : ℚ)
    (hs : List.Pairwise (· ≤ ·) ph) (htau : 0 < tau) :
    kde_rates ph tau =
      some ((List.range ph.length).map (fun i =>
        ∑ j ∈ Finset.Ico (specIneg ph (5 * tau) i) (specIpos ph (5 * tau) i),
          Real.exp (-(((ph.getD j 0 - ph.getD i 0).natAbs : ℝ)) /
            (tau : ℝ)))) := by
  rw [kde_rates, kdeWindows_spec ph tau hs (le_of_lt htau), Option.map_some']
  congr 1
  apply List.map_congr_left
  intro i hi
  rw [List.mem_range] at hi
  rw [getD_map_range _ _ hi]

/-- Witness for C2 at `ph = [0, 5]`, `tau = 1`. -/
theorem c2_witness :
    List.Pairwise (· ≤ ·) [(0:ℤ), 5] ∧ (0:ℚ) < 1 ∧
    kde_rates [(0:ℤ), 5] 1 =
      some ((List.range (List.length [(0:ℤ), 5])).map (fun i =>
        ∑ j ∈ Finset.Ico (specIneg [(0:ℤ), 5] (5 * 1) i)
            (specIpos [(0:ℤ), 5] (5 * 1) i),
          Real.exp (-((([(0:ℤ), 5].getD j 0 - [(0:ℤ), 5].getD i 0).natAbs : ℝ))
            / ((1:ℚ) : ℝ)))) :=
  ⟨by decide, by norm_num,
    c2_rates_window_sum [(0:ℤ), 5] 1 (by decide) (by norm_num)⟩

/-- Counterexample to C4 as stated: `tau = 0` satisfies `tau ≤ 0`, yet on
`ph = [0]` the function performs no precondition check, enters the loop, and
returns a normal result (an empty window and a zero count) instead of
rejecting at the call boundary. -/
theorem c4_counterexample :
    kdeWindows [(0:ℤ)] 0 = some [(0, 0)] ∧
    kde_nph [(0:ℤ)] 0 = some [0] ∧ kde_nph [(0:ℤ)] 0 ≠ none := by
  refine ⟨?_, ?_, ?_⟩
  · norm_num [kdeWindows, kdeGo, whileIpos, whileIneg]
  · norm_num [kde_nph, kdeWindows, kdeGo, whileIpos, whileIneg, int16wrap]
  · intro hnone
    rw [kde_nph] at hnone
    norm_num [kdeWindows, kdeGo, whileIpos, whileIneg] at hnone
    exact Option.noConfusion hnone

/-- C4 (amended): `_kde_laplace_self` performs no precondition check on
`tau`.  For sorted `ph` and `tau = 0` it enters the loop and returns
normally, with every window empty and every count `0`, instead of rejecting
at the call boundary; and for `tau < 0` it does not reject at the call
boundary either: the unguarded `ineg` scan runs past the end of the array
mid-loop (an `IndexError`, here at `ph = [0]`, `tau = -1`). -/
theorem c4_no_tau_precondition_check (ph : List ℤ)
    (hs : List.Pairwise (· ≤ ·) ph) :
    kde_nph ph 0 = some (List.replicate ph.length 0) ∧
    kdeWindows [(0:ℤ)] (-1) = none ∧ kde_nph [(0:ℤ)] (-1) = none := by
  refine ⟨?_, ?_, ?_⟩
  · rw [kde_nph, kdeWindows_spec ph 0 hs (le_refl 0), Option.map_some',
      List.map_map]
    congr 1
    have hcongr : ∀ i ∈ List.range ph.length,
        ((fun w : ℕ × ℕ => int16wrap ((w.2 : ℤ) - (w.1 : ℤ))) ∘
          (fun x => (specIneg ph (5 * 0) x, specIpos ph (5 * 0) x))) i =
        (fun _ => (0 : ℤ)) i := by
      intro i _
      have hpq : specIneg ph (5 * 0) i = specIpos ph (5 * 0) i := by
        rw [specIneg, specIpos]
        congr 1
        funext j
        rw [decide_eq_decide]
        constructor
        · intro h
          push_cast at h ⊢
          linarith
        · intro h
          push_cast at h ⊢
          linarith
      show int16wrap
        ((specIpos ph (5 * 0) i : ℤ) - (specIneg ph (5 * 0) i : ℤ)) = 0
      rw [hpq, sub_self, int16wrap]
      norm_num
    rw [List.map_congr_left hcongr, List.map_const', List.length_range]
  · norm_num [kdeWindows, kdeGo, whileIpos, whileIneg]
  · norm_num [kde_nph, kdeWindows, kdeGo, whileIpos, whileIneg]

/-- Witness for C4 (amended) at `ph = [0, 7]` for the `tau = 0` part; the
`tau < 0` parts of the conclusion are already closed. -/
theorem c4_witness :
    List.Pairwise (· ≤ ·) [(0:ℤ), 7] ∧
    (kde_nph [(0:ℤ), 7] 0 =
        some (List.replicate (List.length [(0:ℤ), 7]) 0) ∧
      kdeWindows [(0:ℤ)] (-1) = none ∧ kde_nph [(0:ℤ)] (-1) = none) :=
  ⟨by decide, c4_no_tau_precondition_check [(0:ℤ), 7] (by decide)⟩

/-- C6: for sorted `ph` and `tau > 0` the loop completes and at every
iteration `i` the post-update pointers satisfy `ineg ≤ i < ipos` (so `ipos`
is never below `i + 1`), and both pointers are non-decreasing in `i`. -/
theorem c6_pointer_invariants (ph : List ℤ) (tau : ℚ)
    (hs : List.Pairwise (· ≤ ·) ph) (htau : 0 < tau) :
    (kdeWindows ph tau).isSome = true ∧
    ∀ ws, kdeWindows ph tau = some ws →
      (∀ i, i < ph.length →
        (ws.getD i (0, 0)).1 ≤ i ∧ i + 1 ≤ (ws.getD i (0, 0)).2) ∧
      (∀ i j, i ≤ j → j < ph.length →
        (ws.getD i (0, 0)).1 ≤ (ws.getD j (0, 0)).1 ∧
        (ws.getD i (0, 0)).2 ≤ (ws.getD j (0, 0)).2) := by
  have hw := kdeWindows_spec ph tau hs (le_of_lt htau)
  constructor
  · rw [hw]
    rfl
  · intro ws hws
    rw [hw] at hws
    injection hws with hws
    subst hws
    constructor
    · intro i hi
      rw [getD_map_range _ _ hi]
      exact ⟨specIneg_le_self ph (5 * tau) (by linarith) hi,
        lt_specIpos ph (5 * tau) hs (by linarith) hi⟩
    · intro i j hij hj
      rw [getD_map_range _ _ (lt_of_le_of_lt hij hj), getD_map_range _ _ hj]
      exact ⟨specIneg_mono ph (5 * tau) hs hij hj,
        specIpos_mono ph (5 * tau) hs hij hj⟩

/-- Witness for C6 at `ph = [0, 5]`, `tau = 1`. -/
theorem c6_witness :
    List.Pairwise (· ≤ ·) [(0:ℤ), 5] ∧ (0:ℚ) < 1 ∧
    (kdeWindows [(0:ℤ), 5] 1).isSome = true :=
  ⟨by decide, by norm_num,
    (c6_pointer_invariants [(0:ℤ), 5] 1 (by decide) (by norm_num)).1⟩

/-- C9: for sorted `ph` and `tau > 0` the bound-check-free `ineg` loop never
reads past the array: the whole call succeeds (no `IndexError` for any
`N ≥ 0`) and at every iteration `i` the stopping term `ph[i]` keeps
`ineg ≤ i`. -/
theorem c9_ineg_inbounds (ph : List ℤ) (tau : ℚ)
    (hs : List.Pairwise (· ≤ ·) ph) (htau : 0 < tau) :
    kdeWindows ph tau ≠ none ∧
    ∀ ws, kdeWindows ph tau = some ws → ∀ i, i < ph.length →
      (ws.getD i (0, 0)).1 ≤ i := by
  have hw := kdeWindows_spec ph tau hs (le_of_lt htau)
  constructor
  · rw [hw]
    intro h
    exact Option.noConfusion h
  · intro ws hws i hi
    rw [hw] at hws
    injection hws with hws
    subst hws
    rw [getD_map_range _ _ hi]
    exact specIneg_le_self ph (5 * tau) (by linarith) hi

/-- Witness for C9 at `ph = [0, 3, 100]`, `tau = 1` (the third timestamp is
far beyond the window of the first two). -/
theorem c9_witness :
    List.Pairwise (· ≤ ·) [(0:ℤ), 3, 100] ∧ (0:ℚ) < 1 ∧
    kdeWindows [(0:ℤ), 3, 100] 1 ≠ none :=
  ⟨by decide, by norm_num,
    (c9_ineg_inbounds [(0:ℤ), 3, 100] 1 (by decide) (by norm_num)).1⟩

/-!
## C5: `int16` overflow of the count accumulator
-/

theorem getD_replicate_zero (n j : ℕ) :
    (List.replicate n (0:ℤ)).getD j 0 = 0 := by
  rcases Nat.lt_or_ge j n with h | h
  · rw [List.getD_eq_getElem _ _ (by simpa using h), List.getElem_replicate]
  · rw [List.getD_eq_default _ _ (by simpa using h)]

theorem specIneg_replicate (n : ℕ) (tlim : ℚ) (h0 : 0 ≤ tlim) (i : ℕ) :
    specIneg (List.replicate n (0:ℤ)) tlim i = 0 := by
  apply leastIdx_eq_of
  · omega
  · intro j hj
    omega
  · intro _
    simp only [getD_replicate_zero, sub_zero, Int.cast_zero,
      decide_eq_true_eq]
    exact h0

theorem specIpos_replicate (n : ℕ) (tlim : ℚ) (h0 : 0 < tlim) (i : ℕ) :
    specIpos (List.replicate n (0:ℤ)) tlim i = n := by
  have hl : (List.replicate n (0:ℤ)).length = n := List.length_replicate n 0
  apply leastIdx_eq_of
  · omega
  · intro j _
    simp only [getD_replicate_zero, sub_zero, Int.cast_zero,
      decide_eq_false_iff_not, not_le]
    exact h0
  · intro hlt
    omega

theorem kde_nph_replicate (n : ℕ) :
    kde_nph (List.replicate n (0:ℤ)) 1 =
      some (List.replicate n (int16wrap (n : ℤ))) := by
  have hs : List.Pairwise (· ≤ ·) (List.replicate n (0:ℤ)) :=
    List.pairwise_replicate.mpr (Or.inr le_rfl)
  have hlen : (List.replicate n (0:ℤ)).length = n := List.length_replicate n 0
  rw [kde_nph, kdeWindows_spec _ 1 hs (by norm_num), Option.map_some',
    List.map_map]
  have hcongr : ∀ i ∈ List.range (List.replicate n (0:ℤ)).length,
      ((fun w : ℕ × ℕ => int16wrap ((w.2 : ℤ) - (w.1 : ℤ))) ∘
        (fun x => (specIneg (List.replicate n (0:ℤ)) (5 * 1) x,
          specIpos (List.replicate n (0:ℤ)) (5 * 1) x))) i =
      (fun _ => int16wrap (n : ℤ)) i := by
    intro i _
    have e1 := specIneg_replicate n (5 * 1) (by norm_num) i
    have e2 := specIpos_replicate n (5 * 1) (by norm_num) i
    simp only [Function.comp_apply, e1, e2]
    norm_num
  rw [List.map_congr_left hcongr, List.map_const', List.length_range, hlen]

theorem windowCount_replicate (n : ℕ) (hn : 0 < n) :
    windowCount (List.replicate n (0:ℤ)) 1 0 = n := by
  have hs : List.Pairwise (· ≤ ·) (List.replicate n (0:ℤ)) :=
    List.pairwise_replicate.mpr (Or.inr le_rfl)
  have hlen : (List.replicate n (0:ℤ)).length = n := List.length_replicate n 0
  rw [windowCount_eq _ 1 hs (by rw [hlen]; omega),
    specIneg_replicate n (5 * 1) (by norm_num) 0,
    specIpos_replicate n (5 * 1) (by norm_num) 0]
  omega

/-- C5: the claim that a window population overflowing the `int16` count
accumulator is reported loudly is a true reading of the spec and of the
function's own documentation ("number of photons in the window"), but the
code violates it: with 40000 coincident timestamps and `tau = 1` every
window holds 40000 photons, and the code silently stores the wrapped
`int16` value `-25536` in every `nph` slot while the true count is 40000. -/
theorem c5_int16_silent_wraparound :
    kde_nph (List.replicate 40000 (0:ℤ)) 1 =
      some (List.replicate 40000 (-25536 : ℤ)) ∧
    windowCount (List.replicate 40000 (0:ℤ)) 1 0 = 40000 := by
  constructor
  · rw [kde_nph_replicate 40000]
    have hwrap : int16wrap ((40000 : ℕ) : ℤ) = -25536 := by
      norm_num [int16wrap]
    rw [hwrap]
  · exact windowCount_replicate 40000 (by norm_num)

end FRETBursts
